import Mathlib

/-!
Shallow embedding of the hybrid retrieval pipeline of this repository
(`rag-checkpoint.py` and `ingest-checkpoint.py`).

Conventions of the embedding:
* Python floats are modelled as exact rationals (`ℚ`); every property checked
  here is about ordering, permutation and window arithmetic, not rounding.
* External capabilities (the sentence-transformer embedder, the chroma index,
  the `rank_bm25` BM25Okapi scorer, the cross-encoder) are not code of this
  repository; they enter as parameters: a distance per candidate, a pairwise
  dot product between candidate embeddings, a lexical score per document text,
  a relevance score per hit.
* `numpy.argsort` is modelled as a stable ascending sort of the index range
  (numpy's `kind='stable'`); Python's `sorted` (which is specified stable) and
  `min`/`max` with a key (which return the first optimum in iteration order)
  are modelled exactly.  Iteration over `set(range(n))` in CPython visits the
  small integers in increasing order, so the candidate pool of the MMR loop is
  modelled as an ascending list of indices.
* The two unbounded loops of the source (`token_chunk`'s while-loop and the
  MMR while-loop) are given an explicit fuel argument; a fuel at least as
  large as the loop's iteration count makes the fuelled function agree with
  the source loop, and `none` marks fuel exhaustion.
-/

/-- A retrieval hit, the element type flowing through the pipeline:
`{"doc": d, "meta": m, "dist": dist}` in `retrieve`.  The metadata dictionary
is opaque to every stage, so it is modelled as a bare tag. -/
structure Hit where
  doc : String
  meta : Nat
  dist : ℚ
deriving DecidableEq, Inhabited, Repr

/-- Maximum of a list of rationals (`numpy.max` / Python `max` over a
non-empty collection; the `[]` case is never reached by the call sites the
source guards). -/
def listMax : List ℚ → ℚ
  | [] => 0
  | x :: xs => max x (listMax xs)

/-- Comparison by a rational-valued key, the relation underlying every
`sorted(..., key=...)` and `argsort` call of the source. -/
def keyLe (f : α → ℚ) (a b : α) : Prop := f a ≤ f b

instance (f : α → ℚ) : DecidableRel (keyLe f) := fun a b => by
  unfold keyLe; infer_instance

instance (f : α → ℚ) : IsTotal α (keyLe f) := ⟨fun a b => le_total (f a) (f b)⟩

instance (f : α → ℚ) : IsTrans α (keyLe f) := ⟨fun _ _ _ h h' => le_trans h h'⟩

/-- Ascending-by-distance order on hits: the key of
`sorted(items, key=lambda x: x["dist"])`. -/
def distLe (a b : Hit) : Prop := keyLe Hit.dist a b

instance : DecidableRel distLe := fun a b => by
  unfold distLe; infer_instance

instance : IsTotal Hit distLe := ⟨fun a b => le_total a.dist b.dist⟩

instance : IsTrans Hit distLe := ⟨fun _ _ _ h h' => le_trans h h'⟩

/-- The `else` branch of `retrieve` (diversity disabled):
`items = sorted(items, key=lambda x: x["dist"])[:k]`. -/
def retrieveNoMMR (items : List Hit) (k : Nat) : List Hit :=
  (List.insertionSort distLe items).take k

/-- The candidate count requested from the index in `retrieve`:
`n_results=max(k*3 if mmr else k, k)`.  Over `ℤ` because the Python `int` is
unconstrained by the function itself. -/
def candidateCount (k : Int) (mmr : Bool) : Int :=
  max (if mmr then k * 3 else k) k

/-- Capability calls issued by `retrieve`, in program order. -/
inductive Ev where
  | embedQuery
  | indexQuery (nResults : Int)
  | embedCandidates
deriving DecidableEq, Repr

/-- The sequence of capability calls `retrieve` makes before any pure
post-processing: it embeds the query (`embedder.encode([query], ...)`), then
queries the index (`col.query(..., n_results=max(k*3 if mmr else k, k))`),
then — only when `mmr` is set — embeds the candidate texts.  The function body
contains no validation of `k` and no error path of its own. -/
def retrieveTrace (k : Int) (mmr : Bool) : List Ev :=
  [Ev.embedQuery, Ev.indexQuery (candidateCount k mmr)] ++
    (if mmr then [Ev.embedCandidates] else [])

/-- Construction of the hit list in `retrieve`:
`dists = res["distances"][0] if "distances" in res else [0.0]*len(docs)`
followed by
`items = [{"doc": d, "meta": m, "dist": dist} for d, m, dist in zip(...)]`.
`dists?` is `none` when the index response has no `"distances"` field. -/
def mkItems (docs : List String) (metas : List Nat) (dists? : Option (List ℚ)) :
    List Hit :=
  let dists := match dists? with
    | some ds => ds
    | none => List.replicate docs.length 0
  (docs.zip (metas.zip dists)).map (fun p => ⟨p.1, p.2.1, p.2.2⟩)

/-!
The MMR (diversity) loop of `retrieve`, lines 49–71 of the source.  Python's
`min(cand, key=f)` / `max(cand, key=f)` return the first optimum in iteration
order; they are modelled by a left fold keeping the current best and replacing
it only on a strict improvement.
-/

/-- Left fold of Python's `min`/`max` with a key: `better i best` holds when
candidate `i` strictly improves on the current best, in which case the best is
replaced. -/
def pyFold (better : Nat → Nat → Bool) : Nat → List Nat → Nat
  | best, [] => best
  | best, i :: rest => pyFold better (if better i best then i else best) rest

/-- Python `min(l, key=key)` for a non-empty list `l`: the first element
attaining the minimum key. -/
def pyMin (key : Nat → ℚ) : List Nat → Nat
  | [] => 0
  | i :: rest => pyFold (fun a b => decide (key a < key b)) i rest

/-- Python `max(l, key=key)` for a non-empty list `l`: the first element
attaining the maximum key. -/
def pyMax (key : Nat → ℚ) : List Nat → Nat
  | [] => 0
  | i :: rest => pyFold (fun a b => decide (key b < key a)) i rest

/-- The `mmr_score` closure: `lam*qsim - (1-lam)*diversity` with `lam = 0.75`,
`qsim = 1 - items[i]["dist"]` and `diversity` the maximum dot product between
candidate `i` and the already selected candidates. -/
def mmrScore (dist : Nat → ℚ) (dot : Nat → Nat → ℚ) (sel : List Nat) (i : Nat) : ℚ :=
  (3 / 4) * (1 - dist i) - (1 - 3 / 4) * listMax (sel.map (dot i))

/-- The greedy MMR while-loop: `while cand_idx and len(selected) < k`.  One
fuel unit per iteration; each iteration moves exactly one index from the
candidate pool to `sel`, so any fuel `≥ cand.length` reproduces the source
loop. -/
def mmrLoop (dist : Nat → ℚ) (dot : Nat → Nat → ℚ) (k : Nat) :
    Nat → List Nat → List Nat → List Nat
  | 0, sel, _ => sel
  | fuel + 1, sel, cand =>
    if cand = [] ∨ k ≤ sel.length then sel
    else
      let best := if sel = [] then pyMin dist cand
        else pyMax (mmrScore dist dot sel) cand
      mmrLoop dist dot k fuel (sel ++ [best]) (cand.erase best)

/-- The diversity stage of `retrieve` on `n` candidates: runs the MMR loop on
the candidate pool `set(range(n))` with empty initial selection, returning the
list of selected indices (`selected`); the source finally maps them over
`items`. -/
def mmrSelect (dist : Nat → ℚ) (dot : Nat → Nat → ℚ) (k n : Nat) : List Nat :=
  mmrLoop dist dot k n [] (List.range n)

/-!
Lexical fusion, `bm25_mix` (source lines 78–89).  The BM25 scores come from
the external `rank_bm25.BM25Okapi` built over exactly the hit texts; for a
fixed query and corpus the score of a hit is a function of its document text,
modelled by the parameter `f : String → ℚ`.
-/

/-- Stable ascending argsort of `[0, ..., n)` by a key — the model of
`numpy.argsort` (ties keep index order). -/
def argsortAsc (key : Nat → ℚ) (n : Nat) : List Nat :=
  List.insertionSort (keyLe key) (List.range n)

/-- The vectorized score computation of `bm25_mix`:
`sim = 1 - dist/(dist.max() + 1e-9)` and `mixed = alpha*bm_scores + (1-alpha)*sim`,
with `bm_scores` the external BM25 scores of the hit texts. -/
def bmMixScores (f : String → ℚ) (hits : List Hit) (alpha : ℚ) : List ℚ :=
  let dist := hits.map Hit.dist
  let m := listMax dist
  List.zipWith (fun b s => alpha * b + (1 - alpha) * s)
    (hits.map (fun h => f h.doc))
    (dist.map (fun d => 1 - d / (m + 1 / 1000000000)))

/-- Source `bm25_mix`: computes `mixed`, then
`order = mixed.argsort()[::-1]` and returns `[hits[i] for i in order]`.
Default `alpha = 0.2`. -/
def bm25_mix (f : String → ℚ) (hits : List Hit) (alpha : ℚ) : List Hit :=
  let mixed := bmMixScores f hits alpha
  ((argsortAsc (fun i => mixed.getD i 0) mixed.length).reverse).map
    (fun i => hits.getD i default)

/-- The per-hit mixed score as a function of the hit (the external BM25 score
is a function of the document text, the similarity a function of the distance
and of the fixed maximal distance of the batch). -/
def mixedKey (f : String → ℚ) (hits : List Hit) (alpha : ℚ) (h : Hit) : ℚ :=
  alpha * f h.doc + (1 - alpha) * (1 - h.dist / (listMax (hits.map Hit.dist) + 1 / 1000000000))

/-- What the specification describes for the fusion stage: a stable sort of
the hits, descending by mixed score, ties keeping the pre-fusion order.
Stated only to be compared with the source's `bm25_mix`. -/
def bm25_mix_spec (f : String → ℚ) (hits : List Hit) (alpha : ℚ) : List Hit :=
  List.insertionSort (fun a b => keyLe (mixedKey f hits alpha) b a) hits

instance (f : String → ℚ) (hits : List Hit) (alpha : ℚ) :
    DecidableRel (fun a b : Hit => keyLe (mixedKey f hits alpha) b a) :=
  fun a b => by unfold keyLe; infer_instance

/-!
Cross-encoder rerank, `rerank_cross_encoder` (source lines 91–96).  The
cross-encoder scores are external, one per hit in order (`ce.predict(pairs)`),
modelled as a list `scores` aligned with `hits`.
-/

/-- Descending order on (hit, score) pairs by the score: the order of
`sorted(zip(hits, scores), key=lambda x: x[1], reverse=True)` — Python's
`reverse=True` keeps the sort stable, ties stay in input order. -/
def scoreDesc (a b : Hit × ℚ) : Prop := b.2 ≤ a.2

instance : DecidableRel scoreDesc := fun a b => by
  unfold scoreDesc; infer_instance

instance : IsTotal (Hit × ℚ) scoreDesc := ⟨fun a b => le_total b.2 a.2⟩

instance : IsTrans (Hit × ℚ) scoreDesc := ⟨fun _ _ _ h h' => le_trans h' h⟩

/-- Source `rerank_cross_encoder`: stable-sorts the zipped (hit, score) pairs
descending by score and projects the hits back out. -/
def rerank_cross_encoder (hits : List Hit) (scores : List ℚ) : List Hit :=
  (List.insertionSort scoreDesc (hits.zip scores)).map Prod.fst

/-!
The chunker, `token_chunk` (ingest source lines 50–62).  Encoding and decoding
through `tiktoken` are external; a chunk is determined by its window
`[start, end)` over the token sequence, so the loop is modelled over the token
count `len`, emitting the windows.  `start = max(0, end - overlap)` is exactly
truncated subtraction on `ℕ`.  One fuel unit per loop iteration; `none` marks
fuel exhaustion.
-/

/-- The while-loop of `token_chunk` over a token sequence of length `len`:
emits windows `(start, end)` with `end = min (start + max_tokens) len`, breaks
after the window that reaches `len`, and otherwise continues from
`end - overlap`. -/
def chunkLoop (mt ov len : Nat) : Nat → Nat → Option (List (Nat × Nat))
  | 0, start => if start < len then none else some []
  | fuel + 1, start =>
    if start < len then
      let e := min (start + mt) len
      if e = len then some [(start, e)]
      else (chunkLoop mt ov len fuel (e - ov)).map (fun rest => (start, e) :: rest)
    else some []

/-- The iteration bound claimed for the chunker: `⌈len / (mt - ov)⌉`. -/
def chunkFuel (len mt ov : Nat) : Nat :=
  (len + (mt - ov) - 1) / (mt - ov)

/-!
Theorems.  Batteries marks `Rat` arithmetic `@[irreducible]`; concrete
evaluation of the embedded pipeline needs it unfolded.
-/

attribute [local semireducible] Rat.mul Rat.add Rat.sub Rat.inv

/-- Claim C8: the Stage-0 candidate fetch asks the index for `k * 3` results
when the diversity stage is enabled and `k` otherwise, and in all cases the
requested count is never fewer than `k`. -/
theorem c8_candidate_count :
    (∀ k : Int, 0 ≤ k → ∀ mmr : Bool,
        candidateCount k mmr = (if mmr then k * 3 else k)) ∧
    (∀ (k : Int) (mmr : Bool), k ≤ candidateCount k mmr) := by
  constructor
  · intro k hk mmr
    cases mmr <;> simp only [candidateCount, if_true, if_false, Bool.false_eq_true]
    · exact max_self k
    · exact max_eq_left (by omega)
  · intro k mmr
    exact le_max_right _ _

/-- Witness for C8 at `k = 2`, diversity enabled. -/
theorem c8_candidate_count_witness :
    (0 : Int) ≤ 2 ∧ candidateCount 2 true = (if true then 2 * 3 else 2) :=
  ⟨by decide, c8_candidate_count.1 2 (by decide) true⟩

/-- Claim C9: when the index response carries no `"distances"` field, every
constructed hit is assigned the distance `0.0`. -/
theorem c9_missing_distances_zero :
    ∀ (docs : List String) (metas : List Nat) (it : Hit),
      it ∈ mkItems docs metas none → it.dist = 0 := by
  intro docs metas it hmem
  unfold mkItems at hmem
  simp only [List.mem_map] at hmem
  obtain ⟨p, hp, rfl⟩ := hmem
  have h1 := List.of_mem_zip hp
  have h2 := List.of_mem_zip h1.2
  exact List.eq_of_mem_replicate h2.2

/-- Witness for C9 on a one-document response. -/
theorem c9_missing_distances_zero_witness :
    (⟨"a", 7, 0⟩ : Hit) ∈ mkItems ["a"] [7] none ∧ (⟨"a", 7, 0⟩ : Hit).dist = 0 :=
  ⟨by decide, c9_missing_distances_zero ["a"] [7] _ (by decide)⟩

/-- Claim C3, counterexample: at `k = 0` the code does not raise any
configuration error — the embedding capability is invoked and the index is
queried (for zero results), contradicting the claim that no embedding call
and no index query is made. -/
theorem c3_counterexample :
    Ev.embedQuery ∈ retrieveTrace 0 false ∧ Ev.indexQuery 0 ∈ retrieveTrace 0 false := by
  decide

/-- Claim C3, amended: `retrieve` performs no validation of `k`; for every
`k ≤ 0` the query embedding call is still made first and the index is then
queried with `n_results = k`. -/
theorem c3_no_validation :
    ∀ k : Int, k ≤ 0 → ∀ mmr : Bool,
      retrieveTrace k mmr =
        Ev.embedQuery :: Ev.indexQuery k ::
          (if mmr then [Ev.embedCandidates] else []) := by
  intro k hk mmr
  have hc : candidateCount k mmr = k := by
    cases mmr <;> simp only [candidateCount, if_true, if_false, Bool.false_eq_true]
    · exact max_self k
    · exact max_eq_right (by omega)
  simp [retrieveTrace, hc]

/-- Witness for the amended C3 at `k = 0`. -/
theorem c3_no_validation_witness :
    (0 : Int) ≤ 0 ∧ retrieveTrace 0 false =
      Ev.embedQuery :: Ev.indexQuery 0 :: (if false then [Ev.embedCandidates] else []) :=
  ⟨by decide, c3_no_validation 0 (by decide) false⟩

/-- Claim C4: the chunker does not reject `overlap ≥ max_tokens`; with
`max_tokens = 1`, `overlap = 1` on a two-token text the window start never
advances (`end = 1`, next `start = max(0, 1 - 1) = 0`), so the loop never
terminates: no fuel suffices. -/
theorem c4_token_chunk_diverges :
    ∀ fuel : Nat, chunkLoop 1 1 2 fuel 0 = none := by
  intro fuel
  induction fuel with
  | zero => rfl
  | succ f ih => simp [chunkLoop, ih]

/-- Claim C7: with the diversity stage disabled, `retrieve` returns the
candidates sorted ascending by distance, truncated to `k`: the result is
sorted, is a sub-permutation of the candidates, has length `min k n`, and the
spec's scenario (distances `0.1, 0.2, 0.9`, `k = 2`) yields the two
lowest-distance hits in ascending order. -/
theorem c7_no_diversity_sorted :
    (∀ (items : List Hit) (k : Nat), List.Sorted distLe (retrieveNoMMR items k)) ∧
    (∀ (items : List Hit) (k : Nat), (retrieveNoMMR items k).Subperm items) ∧
    (∀ (items : List Hit) (k : Nat), (retrieveNoMMR items k).length = min k items.length) ∧
    retrieveNoMMR [⟨"d1", 0, 1/10⟩, ⟨"d2", 1, 2/10⟩, ⟨"d3", 2, 9/10⟩] 2 =
      [⟨"d1", 0, 1/10⟩, ⟨"d2", 1, 2/10⟩] := by
  refine ⟨?_, ?_, ?_, by decide⟩
  · intro items k
    exact List.Pairwise.sublist (List.take_sublist _ _)
      (List.sorted_insertionSort distLe items)
  · intro items k
    exact List.Subperm.trans (List.Sublist.subperm (List.take_sublist _ _))
      (List.Perm.subperm (List.perm_insertionSort distLe items))
  · intro items k
    simp [retrieveNoMMR]

/-- Any fuel covering the remaining token span (one window of `mt - ov` fresh
tokens per iteration, plus the final window of up to `mt`) makes the chunk
loop finish. -/
theorem chunkLoop_terminates (mt ov len : Nat) (hov : ov < mt) :
    ∀ fuel start,
      len ≤ start ∨ (1 ≤ fuel ∧ len ≤ start + (fuel - 1) * (mt - ov) + mt) →
      ∃ ws, chunkLoop mt ov len fuel start = some ws := by
  intro fuel
  induction fuel with
  | zero =>
    intro start h
    have hs : ¬ start < len := by omega
    exact ⟨[], by simp [chunkLoop, hs]⟩
  | succ f ih =>
    intro start h
    by_cases hs : start < len
    · have hlen : len ≤ start + f * (mt - ov) + mt := by
        rcases h with h | ⟨_, h2⟩
        · omega
        · simpa using h2
      by_cases he : min (start + mt) len = len
      · exact ⟨[(start, min (start + mt) len)], by simp [chunkLoop, hs, he]⟩
      · have hlt : start + mt < len := by
          rcases Nat.lt_or_ge (start + mt) len with h' | h'
          · exact h'
          · exact absurd (Nat.min_eq_right h') he
        have hmin : min (start + mt) len = start + mt := Nat.min_eq_left (le_of_lt hlt)
        have hf : 1 ≤ f := by
          rcases Nat.eq_zero_or_pos f with rfl | hf
          · simp at hlen; omega
          · exact hf
        have hstep : (start + mt - ov) + (f - 1) * (mt - ov) + mt =
            start + f * (mt - ov) + mt := by
          cases f with
          | zero => omega
          | succ f' =>
            have : start + mt - ov = start + (mt - ov) := by omega
            rw [this, Nat.succ_sub_one]
            ring
        obtain ⟨ws, hws⟩ := ih (start + mt - ov) (Or.inr ⟨hf, by omega⟩)
        refine ⟨(start, start + mt) :: ws, ?_⟩
        simp [chunkLoop, hs, hmin, Nat.ne_of_lt hlt, hws]
    · exact ⟨[], by simp [chunkLoop, hs]⟩

/-- Whenever the chunk loop finishes from a position strictly inside the token
sequence, exactly one emitted window ends at the sequence length. -/
theorem chunkLoop_count (mt ov len : Nat) :
    ∀ fuel start ws, chunkLoop mt ov len fuel start = some ws → start < len →
      ws.countP (fun w => decide (w.2 = len)) = 1 := by
  intro fuel
  induction fuel with
  | zero =>
    intro start ws h hs
    simp [chunkLoop, hs] at h
  | succ f ih =>
    intro start ws h hs
    simp only [chunkLoop, if_pos hs] at h
    by_cases he : min (start + mt) len = len
    · rw [if_pos he] at h
      obtain rfl : [(start, min (start + mt) len)] = ws := Option.some.inj h
      simp [List.countP_cons, he]
    · rw [if_neg he] at h
      obtain ⟨rest, hrest, rfl⟩ := Option.map_eq_some'.mp h
      have hs' : min (start + mt) len - ov < len := by
        have h1 : min (start + mt) len ≤ len := min_le_right _ _
        have h2 : min (start + mt) len ≠ len := he
        omega
      have hc := ih _ _ hrest hs'
      simp [List.countP_cons, he, hc]

/-- On an empty token sequence the loop body never runs. -/
theorem chunkLoop_len_zero (mt ov : Nat) :
    ∀ fuel, chunkLoop mt ov 0 fuel 0 = some [] := by
  intro fuel
  cases fuel <;> simp [chunkLoop]

/-- Claim C5, counterexample: on an empty token sequence (`len = 0`, the
claim's "length >= 0" includes it) the loop terminates with no emitted window
at all, so the number of windows ending at the token-sequence length is `0`,
not exactly one. -/
theorem c5_counterexample :
    (chunkLoop 400 80 0 1 0).map
      (fun ws => ws.countP (fun w => decide (w.2 = 0))) = some 0 := by
  decide

/-- Claim C5, amended: for `0 ≤ overlap < max_tokens` the chunk loop
terminates within `⌈len/(max_tokens−overlap)⌉` iterations; when the token
sequence is non-empty exactly one emitted window ends at its length, and when
it is empty no window is emitted at all. -/
theorem c5_chunk_termination :
    ∀ len mt ov : Nat, ov < mt →
      ∃ ws, chunkLoop mt ov len (chunkFuel len mt ov) 0 = some ws ∧
        (1 ≤ len → ws.countP (fun w => decide (w.2 = len)) = 1) ∧
        (len = 0 → ws = []) := by
  intro len mt ov hov
  rcases Nat.eq_zero_or_pos len with rfl | hlen
  · exact ⟨[], chunkLoop_len_zero mt ov _, by simp, fun _ => rfl⟩
  · have hd : 1 ≤ mt - ov := by omega
    have hq := Nat.div_add_mod (len + (mt - ov) - 1) (mt - ov)
    have hm : (len + (mt - ov) - 1) % (mt - ov) < mt - ov := Nat.mod_lt _ (by omega)
    have hdq : len ≤ (mt - ov) * chunkFuel len mt ov := by
      unfold chunkFuel
      omega
    have hq1 : 1 ≤ chunkFuel len mt ov := by
      by_contra hq1
      have : chunkFuel len mt ov = 0 := by omega
      rw [this, Nat.mul_zero] at hdq
      omega
    have hstep : (chunkFuel len mt ov - 1) * (mt - ov) + (mt - ov) =
        chunkFuel len mt ov * (mt - ov) := by
      cases hc : chunkFuel len mt ov with
      | zero => omega
      | succ q' => rw [Nat.succ_sub_one]; ring
    have h2 : len ≤ 0 + (chunkFuel len mt ov - 1) * (mt - ov) + mt :=
      calc len ≤ (mt - ov) * chunkFuel len mt ov := hdq
        _ = chunkFuel len mt ov * (mt - ov) := Nat.mul_comm _ _
        _ = (chunkFuel len mt ov - 1) * (mt - ov) + (mt - ov) := hstep.symm
        _ ≤ 0 + (chunkFuel len mt ov - 1) * (mt - ov) + mt := by omega
    obtain ⟨ws, hws⟩ := chunkLoop_terminates mt ov len hov _ 0 (Or.inr ⟨hq1, h2⟩)
    exact ⟨ws, hws, fun _ => chunkLoop_count mt ov len _ 0 ws hws hlen, fun h0 => by omega⟩

/-- Witness for the amended C5: `len = 5`, `max_tokens = 2`, `overlap = 1`. -/
theorem c5_chunk_termination_witness :
    (1 : Nat) < 2 ∧
    ∃ ws, chunkLoop 2 1 5 (chunkFuel 5 2 1) 0 = some ws ∧
      (1 ≤ 5 → ws.countP (fun w => decide (w.2 = 5)) = 1) ∧
      (5 = 0 → ws = []) :=
  ⟨by decide, c5_chunk_termination 5 2 1 (by decide)⟩

/-- Stability of `orderedInsert` through a key: inserting an element whose key
ties only with elements the relation accepts keeps the filtered-by-key
sublists intact, with the new element in front of its tie class. -/
theorem filter_orderedInsert_key (r : α → α → Prop) [DecidableRel r] (k : α → ℚ)
    (hk : ∀ a b, k a = k b → r a b) (s : ℚ) (a : α) :
    ∀ l : List α, (List.orderedInsert r a l).filter (fun x => decide (k x = s)) =
      if k a = s then a :: l.filter (fun x => decide (k x = s))
      else l.filter (fun x => decide (k x = s)) := by
  intro l
  induction l with
  | nil => by_cases hka : k a = s <;> simp [List.orderedInsert, hka]
  | cons b t ih =>
    by_cases hr : r a b
    · rw [List.orderedInsert_of_le r t hr]
      by_cases hka : k a = s <;> simp [List.filter_cons, hka]
    · by_cases hka : k a = s
      · have hkb : ¬ k b = s := fun hkb => hr (hk a b (by rw [hka, hkb]))
        simp only [List.orderedInsert, if_neg hr, List.filter_cons]
        simp [hka, hkb, ih]
      · simp only [List.orderedInsert, if_neg hr, List.filter_cons]
        by_cases hkb : k b = s <;> simp [hka, hkb, ih]

/-- Stability of `insertionSort` through a key: sorting by a relation that
accepts every key tie leaves each tie class in its original order. -/
theorem filter_insertionSort_key (r : α → α → Prop) [DecidableRel r] (k : α → ℚ)
    (hk : ∀ a b, k a = k b → r a b) (s : ℚ) :
    ∀ l : List α, (List.insertionSort r l).filter (fun x => decide (k x = s)) =
      l.filter (fun x => decide (k x = s)) := by
  intro l
  induction l with
  | nil => rfl
  | cons a t ih =>
    simp only [List.insertionSort]
    rw [filter_orderedInsert_key r k hk s a _, ih]
    by_cases hka : k a = s <;> simp [List.filter_cons, hka]

/-- Claim C6: the cross-encoder rerank stage returns a permutation of exactly
the input hits (no hit dropped or added), ordered descending by score, with
every tie class kept in the pre-rerank order (stability). -/
theorem c6_rerank_stage (hits : List Hit) (scores : List ℚ) (s : ℚ)
    (hlen : hits.length = scores.length) :
    List.Perm (rerank_cross_encoder hits scores) hits ∧
    List.Sorted scoreDesc (List.insertionSort scoreDesc (hits.zip scores)) ∧
    (List.insertionSort scoreDesc (hits.zip scores)).filter
        (fun p => decide (p.2 = s)) =
      (hits.zip scores).filter (fun p => decide (p.2 = s)) := by
  refine ⟨?_, List.sorted_insertionSort scoreDesc _,
    filter_insertionSort_key scoreDesc Prod.snd
      (fun a b h => le_of_eq h.symm) s _⟩
  unfold rerank_cross_encoder
  have h2 := (List.perm_insertionSort scoreDesc (hits.zip scores)).map Prod.fst
  rw [List.map_fst_zip hits scores (le_of_eq hlen)] at h2
  exact h2

/-- Witness for C6 on two hits with distinct scores. -/
theorem c6_rerank_stage_witness :
    ([(⟨"x", 0, 0⟩ : Hit), ⟨"y", 1, 0⟩]).length = ([1, 2] : List ℚ).length ∧
    (List.Perm (rerank_cross_encoder [⟨"x", 0, 0⟩, ⟨"y", 1, 0⟩] [1, 2])
        [⟨"x", 0, 0⟩, ⟨"y", 1, 0⟩] ∧
    List.Sorted scoreDesc (List.insertionSort scoreDesc
        (([(⟨"x", 0, 0⟩ : Hit), ⟨"y", 1, 0⟩]).zip ([1, 2] : List ℚ))) ∧
    (List.insertionSort scoreDesc
        (([(⟨"x", 0, 0⟩ : Hit), ⟨"y", 1, 0⟩]).zip ([1, 2] : List ℚ))).filter
        (fun p => decide (p.2 = 5)) =
      (([(⟨"x", 0, 0⟩ : Hit), ⟨"y", 1, 0⟩]).zip ([1, 2] : List ℚ)).filter
        (fun p => decide (p.2 = 5))) :=
  ⟨by decide, c6_rerank_stage [⟨"x", 0, 0⟩, ⟨"y", 1, 0⟩] [1, 2] 5 (by decide)⟩

/-- Zipping two maps of the same list pointwise is a map of that list. -/
theorem zipWith_map_same (u : α → β) (v : α → γ) (op : β → γ → δ) :
    ∀ l : List α, List.zipWith op (l.map u) (l.map v) = l.map (fun a => op (u a) (v a)) := by
  intro l
  induction l with
  | nil => rfl
  | cons a t ih => simp [List.zipWith, ih]

/-- Reading a list back off the index range recovers the list. -/
theorem map_getD_range (l : List α) (d : α) :
    (List.range l.length).map (fun i => l.getD i d) = l := by
  induction l with
  | nil => rfl
  | cons a t ih =>
    have hcomp : ((fun i => (a :: t).getD i d) ∘ Nat.succ) = fun i => t.getD i d := by
      funext i
      simp [List.getD_cons_succ]
    rw [List.length_cons, List.range_succ_eq_map, List.map_cons, List.getD_cons_zero,
      List.map_map, hcomp, ih]

/-- The vectorized `mixed` array of `bm25_mix` is the per-hit mixed score read
off along the hits: the `sim` and `mixed` formulas act elementwise. -/
theorem bmMixScores_eq_map (f : String → ℚ) (hits : List Hit) (alpha : ℚ) :
    bmMixScores f hits alpha = hits.map (mixedKey f hits alpha) := by
  simp only [bmMixScores]
  rw [List.map_map, zipWith_map_same]
  simp [mixedKey, Function.comp]

/-- Bridge: `bm25_mix` (argsort of the index range, reversed, mapped back over
the hits) equals the reversal of a stable ascending insertion sort of the hits
by their mixed score. -/
theorem bm25_mix_eq (f : String → ℚ) (hits : List Hit) (alpha : ℚ) :
    bm25_mix f hits alpha =
      (List.insertionSort (keyLe (mixedKey f hits alpha)) hits).reverse := by
  simp only [bm25_mix, argsortAsc]
  rw [bmMixScores_eq_map, List.length_map]
  rw [List.map_reverse]
  congr 1
  rw [List.map_insertionSort (keyLe fun i => (hits.map (mixedKey f hits alpha)).getD i 0)
    (keyLe (mixedKey f hits alpha)) (fun i => hits.getD i default) (List.range hits.length) ?_]
  · rw [map_getD_range]
  · intro i hi j hj
    rw [List.mem_range] at hi hj
    show (hits.map (mixedKey f hits alpha)).getD i 0 ≤
        (hits.map (mixedKey f hits alpha)).getD j 0 ↔
      mixedKey f hits alpha (hits.getD i default) ≤
        mixedKey f hits alpha (hits.getD j default)
    rw [List.getD_eq_getElem _ 0 (by simpa using hi), List.getD_eq_getElem _ 0 (by simpa using hj),
      List.getElem_map, List.getElem_map,
      List.getD_eq_getElem _ default hi, List.getD_eq_getElem _ default hj]

/-- Claim C10: `bm25_mix` returns a permutation of exactly its input hits —
same length, same multiset, nothing dropped, added, duplicated or mutated. -/
theorem c10_bm25_mix_perm :
    ∀ (f : String → ℚ) (hits : List Hit) (alpha : ℚ), hits ≠ [] →
      List.Perm (bm25_mix f hits alpha) hits := by
  intro f hits alpha _
  rw [bm25_mix_eq]
  exact (List.reverse_perm _).trans (List.perm_insertionSort _ _)

/-- Witness for C10 on a two-hit input. -/
theorem c10_bm25_mix_perm_witness :
    ([(⟨"a", 0, 1/2⟩ : Hit), ⟨"b", 1, 1/3⟩] : List Hit) ≠ [] ∧
    List.Perm (bm25_mix (fun _ => 0) [⟨"a", 0, 1/2⟩, ⟨"b", 1, 1/3⟩] (1/5))
      [⟨"a", 0, 1/2⟩, ⟨"b", 1, 1/3⟩] :=
  ⟨by decide, c10_bm25_mix_perm (fun _ => 0) [⟨"a", 0, 1/2⟩, ⟨"b", 1, 1/3⟩] (1/5) (by decide)⟩

/-- Claim C1, counterexample: two hits with identical text and identical
distance have identical BM25 and mixed scores, yet `bm25_mix` returns them in
reversed order (`argsort` ascending is stable, and the `[::-1]` reversal flips
the tie class), while the claimed stable descending sort keeps the pre-fusion
order.  The external BM25 scorer assigns equal texts equal scores, here the
constant scorer. -/
theorem c1_counterexample :
    bm25_mix (fun _ => 0) [⟨"a", 0, 1/2⟩, ⟨"a", 1, 1/2⟩] (1/5) =
      [⟨"a", 1, 1/2⟩, ⟨"a", 0, 1/2⟩] ∧
    bm25_mix_spec (fun _ => 0) [⟨"a", 0, 1/2⟩, ⟨"a", 1, 1/2⟩] (1/5) =
      [⟨"a", 0, 1/2⟩, ⟨"a", 1, 1/2⟩] ∧
    (⟨"a", 1, 1/2⟩ : Hit) ≠ ⟨"a", 0, 1/2⟩ :=
  ⟨by decide, by decide, by decide⟩

/-- Claim C1, amended: `bm25_mix` computes the claimed `sim` and `mixed`
formulas (with `ε = 1e-9`, default `α = 0.2` at the call site) and re-sorts
the hits descending by mixed score, but ties are broken by the **reverse** of
the pre-fusion order: the ascending stable argsort is reversed wholesale. -/
theorem c1_bm25_mix_sorted :
    ∀ (f : String → ℚ) (hits : List Hit) (alpha : ℚ) (s : ℚ), hits ≠ [] →
      bmMixScores f hits alpha = hits.map (mixedKey f hits alpha) ∧
      List.Sorted (fun a b : Hit => mixedKey f hits alpha b ≤ mixedKey f hits alpha a)
        (bm25_mix f hits alpha) ∧
      (bm25_mix f hits alpha).filter (fun h => decide (mixedKey f hits alpha h = s)) =
        (hits.filter (fun h => decide (mixedKey f hits alpha h = s))).reverse := by
  intro f hits alpha s _
  refine ⟨bmMixScores_eq_map f hits alpha, ?_, ?_⟩
  · rw [bm25_mix_eq]
    rw [List.Sorted, List.pairwise_reverse]
    exact List.sorted_insertionSort (keyLe (mixedKey f hits alpha)) hits
  · rw [bm25_mix_eq, List.filter_reverse]
    congr 1
    exact filter_insertionSort_key (keyLe (mixedKey f hits alpha))
      (mixedKey f hits alpha) (fun a b h => le_of_eq h) s hits

/-- Witness for the amended C1 on two hits with distinct distances. -/
theorem c1_bm25_mix_sorted_witness :
    ([(⟨"a", 0, 1/2⟩ : Hit), ⟨"b", 1, 1/3⟩] : List Hit) ≠ [] ∧
    (bmMixScores (fun _ => 0) [⟨"a", 0, 1/2⟩, ⟨"b", 1, 1/3⟩] (1/5) =
        ([⟨"a", 0, 1/2⟩, ⟨"b", 1, 1/3⟩] : List Hit).map
          (mixedKey (fun _ => 0) [⟨"a", 0, 1/2⟩, ⟨"b", 1, 1/3⟩] (1/5)) ∧
    List.Sorted (fun a b : Hit =>
        mixedKey (fun _ => 0) [⟨"a", 0, 1/2⟩, ⟨"b", 1, 1/3⟩] (1/5) b ≤
        mixedKey (fun _ => 0) [⟨"a", 0, 1/2⟩, ⟨"b", 1, 1/3⟩] (1/5) a)
      (bm25_mix (fun _ => 0) [⟨"a", 0, 1/2⟩, ⟨"b", 1, 1/3⟩] (1/5)) ∧
    (bm25_mix (fun _ => 0) [⟨"a", 0, 1/2⟩, ⟨"b", 1, 1/3⟩] (1/5)).filter
        (fun h => decide (mixedKey (fun _ => 0) [⟨"a", 0, 1/2⟩, ⟨"b", 1, 1/3⟩] (1/5) h = 0)) =
      (([⟨"a", 0, 1/2⟩, ⟨"b", 1, 1/3⟩] : List Hit).filter
        (fun h => decide (mixedKey (fun _ => 0) [⟨"a", 0, 1/2⟩, ⟨"b", 1, 1/3⟩] (1/5) h = 0))).reverse) :=
  ⟨by decide,
    c1_bm25_mix_sorted (fun _ => 0) [⟨"a", 0, 1/2⟩, ⟨"b", 1, 1/3⟩] (1/5) 0 (by decide)⟩

/-- The fold of Python `min`/`max` returns the initial best or a list
element. -/
theorem pyFold_mem (better : Nat → Nat → Bool) :
    ∀ (l : List Nat) (best : Nat),
      pyFold better best l = best ∨ pyFold better best l ∈ l := by
  intro l
  induction l with
  | nil => intro best; exact Or.inl rfl
  | cons i rest ih =>
    intro best
    simp only [pyFold]
    by_cases h : better i best = true
    · rw [if_pos h]
      rcases ih i with h' | h'
      · exact Or.inr (by rw [h']; exact List.mem_cons_self i rest)
      · exact Or.inr (List.mem_cons_of_mem i h')
    · rw [if_neg h]
      rcases ih best with h' | h'
      · exact Or.inl h'
      · exact Or.inr (List.mem_cons_of_mem i h')

/-- Python `min` over a non-empty pool returns a pool element. -/
theorem pyMin_mem (key : Nat → ℚ) : ∀ l : List Nat, l ≠ [] → pyMin key l ∈ l := by
  intro l hl
  match l with
  | i :: rest =>
    simp only [pyMin]
    rcases pyFold_mem (fun a b => decide (key a < key b)) rest i with h | h
    · rw [h]; exact List.mem_cons_self i rest
    · exact List.mem_cons_of_mem i h

/-- Python `max` over a non-empty pool returns a pool element. -/
theorem pyMax_mem (key : Nat → ℚ) : ∀ l : List Nat, l ≠ [] → pyMax key l ∈ l := by
  intro l hl
  match l with
  | i :: rest =>
    simp only [pyMax]
    rcases pyFold_mem (fun a b => decide (key b < key a)) rest i with h | h
    · rw [h]; exact List.mem_cons_self i rest
    · exact List.mem_cons_of_mem i h

/-- The fold underlying Python `min` picks the first minimum: the traversed
list splits around the result, everything before it has a strictly larger key
and everything after a larger-or-equal key. -/
theorem pyFold_min_split (key : Nat → ℚ) :
    ∀ (l : List Nat) (best : Nat),
      ∃ A B, best :: l = A ++ pyFold (fun a b => decide (key a < key b)) best l :: B ∧
        (∀ a ∈ A, key (pyFold (fun a b => decide (key a < key b)) best l) < key a) ∧
        (∀ b ∈ B, key (pyFold (fun a b => decide (key a < key b)) best l) ≤ key b) := by
  intro l
  induction l with
  | nil =>
    intro best
    exact ⟨[], [], rfl, by simp, by simp⟩
  | cons i rest ih =>
    intro best
    simp only [pyFold]
    by_cases h : key i < key best
    · rw [if_pos (decide_eq_true h)]
      obtain ⟨A', B', h1, h2, h3⟩ := ih i
      have hri : key (pyFold (fun a b => decide (key a < key b)) i rest) ≤ key i := by
        cases A' with
        | nil =>
          rw [List.nil_append] at h1
          injection h1 with hh _
          rw [← hh]
        | cons a A'' =>
          rw [List.cons_append] at h1
          injection h1 with hh _
          exact le_of_lt (hh ▸ h2 a (List.mem_cons_self a A''))
      refine ⟨best :: A', B', ?_, ?_, h3⟩
      · rw [List.cons_append, ← h1]
      · intro a ha
        rcases List.mem_cons.mp ha with rfl | ha'
        · exact lt_of_le_of_lt hri h
        · exact h2 a ha'
    · rw [if_neg (by simpa using h)]
      obtain ⟨A', B', h1, h2, h3⟩ := ih best
      cases A' with
      | nil =>
        rw [List.nil_append] at h1
        injection h1 with hh htail
        refine ⟨[], i :: rest, by rw [List.nil_append, ← hh], by simp, ?_⟩
        intro b hb
        rcases List.mem_cons.mp hb with rfl | hb'
        · rw [← hh]; exact le_of_not_lt h
        · rw [htail] at hb'; exact h3 b hb'
      | cons a A'' =>
        rw [List.cons_append] at h1
        injection h1 with hh htail
        refine ⟨best :: i :: A'', B', ?_, ?_, h3⟩
        · rw [List.cons_append, List.cons_append, ← htail]
        · intro x hx
          have hrb : key (pyFold (fun a b => decide (key a < key b)) best rest) < key best := by
            nth_rewrite 2 [hh]
            exact h2 a (List.mem_cons_self a A'')
          rcases List.mem_cons.mp hx with rfl | hx'
          · exact hrb
          · rcases List.mem_cons.mp hx' with rfl | hx''
            · exact lt_of_lt_of_le hrb (le_of_not_lt h)
            · exact h2 x (List.mem_cons_of_mem a hx'')

/-- Python `min(range(n), key=key)`: the result is an index `< n` attaining
the minimal key, and every strictly smaller index has a strictly larger key
(first minimum, ties broken by the earliest position). -/
theorem pyMin_range_first (key : Nat → ℚ) (n : Nat) (hn : 1 ≤ n) :
    pyMin key (List.range n) < n ∧
    (∀ j < n, key (pyMin key (List.range n)) ≤ key j) ∧
    ∀ j < pyMin key (List.range n), key (pyMin key (List.range n)) < key j := by
  obtain ⟨i, rest, hcons⟩ : ∃ i rest, List.range n = i :: rest := by
    cases hr : List.range n with
    | nil =>
      have := List.length_range n
      rw [hr] at this
      simp at this
      omega
    | cons i rest => exact ⟨i, rest, rfl⟩
  have hpm : pyMin key (List.range n) =
      pyFold (fun a b => decide (key a < key b)) i rest := by
    rw [hcons]
    rfl
  obtain ⟨A, B, hsplit, hA, hB⟩ := pyFold_min_split key rest i
  rw [← hcons] at hsplit
  have hmem : pyFold (fun a b => decide (key a < key b)) i rest ∈ List.range n := by
    rw [hsplit]
    exact List.mem_append_right A (List.mem_cons_self _ B)
  have hrn : pyFold (fun a b => decide (key a < key b)) i rest < n :=
    List.mem_range.mp hmem
  refine ⟨by rw [hpm]; exact hrn, ?_, ?_⟩
  · intro j hj
    have hjmem : j ∈ List.range n := List.mem_range.mpr hj
    rw [hsplit] at hjmem
    rw [hpm]
    rcases List.mem_append.mp hjmem with hjA | hjB
    · exact le_of_lt (hA j hjA)
    · rcases List.mem_cons.mp hjB with rfl | hjB'
      · exact le_refl _
      · exact hB j hjB'
  · intro j hj
    rw [hpm] at hj ⊢
    have hjn : j < n := lt_trans hj hrn
    have hjmem : j ∈ List.range n := List.mem_range.mpr hjn
    rw [hsplit] at hjmem
    have hpw : List.Pairwise (· < ·) (List.range n) := List.pairwise_lt_range n
    rw [hsplit] at hpw
    rcases List.mem_append.mp hjmem with hjA | hjB
    · exact hA j hjA
    · rcases List.mem_cons.mp hjB with hjr | hjB'
      · omega
      · have hsub : List.Pairwise (· < ·)
            (pyFold (fun a b => decide (key a < key b)) i rest :: B) :=
          List.Pairwise.sublist (List.sublist_append_right A _) hpw
        have : pyFold (fun a b => decide (key a < key b)) i rest < j :=
          (List.pairwise_cons.mp hsub).1 j hjB'
        omega

/-- The MMR loop only ever appends to the already-selected list. -/
theorem mmrLoop_prefix (dist : Nat → ℚ) (dot : Nat → Nat → ℚ) (k : Nat) :
    ∀ (fuel : Nat) (cand sel : List Nat),
      ∃ t, mmrLoop dist dot k fuel sel cand = sel ++ t := by
  intro fuel
  induction fuel with
  | zero => intro cand sel; exact ⟨[], (List.append_nil sel).symm⟩
  | succ f ih =>
    intro cand sel
    by_cases hg : cand = [] ∨ k ≤ sel.length
    · simp only [mmrLoop, if_pos hg]
      exact ⟨[], (List.append_nil sel).symm⟩
    · simp only [mmrLoop, if_neg hg]
      obtain ⟨t, ht⟩ := ih
        (cand.erase (if sel = [] then pyMin dist cand else pyMax (mmrScore dist dot sel) cand))
        (sel ++ [if sel = [] then pyMin dist cand else pyMax (mmrScore dist dot sel) cand])
      exact ⟨(if sel = [] then pyMin dist cand else pyMax (mmrScore dist dot sel) cand) :: t,
        by rw [ht, List.append_assoc]; rfl⟩

/-- The pick of one MMR iteration always comes from the candidate pool. -/
theorem mmrBest_mem (dist : Nat → ℚ) (dot : Nat → Nat → ℚ) (sel : List Nat)
    (cand : List Nat) (hc : cand ≠ []) :
    (if sel = [] then pyMin dist cand else pyMax (mmrScore dist dot sel) cand) ∈ cand := by
  by_cases hsel : sel = []
  · rw [if_pos hsel]; exact pyMin_mem dist cand hc
  · rw [if_neg hsel]; exact pyMax_mem (mmrScore dist dot sel) cand hc

/-- Claim C2 invariant: the MMR loop preserves the disjointness of selection
and pool, so the final selection has no duplicates. -/
theorem mmrLoop_nodup (dist : Nat → ℚ) (dot : Nat → Nat → ℚ) (k : Nat) :
    ∀ (fuel : Nat) (cand sel : List Nat),
      (sel ++ cand).Nodup → (mmrLoop dist dot k fuel sel cand).Nodup := by
  intro fuel
  induction fuel with
  | zero =>
    intro cand sel h
    exact List.Nodup.sublist (List.sublist_append_left sel cand) h
  | succ f ih =>
    intro cand sel h
    by_cases hg : cand = [] ∨ k ≤ sel.length
    · simp only [mmrLoop, if_pos hg]
      exact List.Nodup.sublist (List.sublist_append_left sel cand) h
    · simp only [mmrLoop, if_neg hg]
      apply ih
      have hc : cand ≠ [] := by
        intro hnil
        exact hg (Or.inl hnil)
      have hmem := mmrBest_mem dist dot sel cand hc
      have hperm : ((sel ++ [if sel = [] then pyMin dist cand
            else pyMax (mmrScore dist dot sel) cand]) ++
          cand.erase (if sel = [] then pyMin dist cand
            else pyMax (mmrScore dist dot sel) cand)).Perm (sel ++ cand) := by
        rw [List.append_assoc]
        exact List.Perm.append_left sel
          ((List.perm_cons_erase hmem).symm)
      exact hperm.symm.nodup h

/-- Claim C2 invariant: with fuel covering the pool, the MMR loop returns
exactly `min k (|sel| + |cand|)` selections. -/
theorem mmrLoop_length (dist : Nat → ℚ) (dot : Nat → Nat → ℚ) (k : Nat) :
    ∀ (fuel : Nat) (cand sel : List Nat), cand.length ≤ fuel → sel.length ≤ k →
      (mmrLoop dist dot k fuel sel cand).length = min k (sel.length + cand.length) := by
  intro fuel
  induction fuel with
  | zero =>
    intro cand sel hf hk
    have hnil : cand = [] := List.eq_nil_of_length_eq_zero (by omega)
    subst hnil
    simp only [mmrLoop, List.length_nil]
    omega
  | succ f ih =>
    intro cand sel hf hk
    by_cases hg : cand = [] ∨ k ≤ sel.length
    · simp only [mmrLoop, if_pos hg]
      rcases hg with rfl | hg
      · simp only [List.length_nil]
        omega
      · omega
    · simp only [mmrLoop, if_neg hg]
      have hc : cand ≠ [] := fun hnil => hg (Or.inl hnil)
      have hsl : ¬ k ≤ sel.length := fun hle => hg (Or.inr hle)
      have hmem := mmrBest_mem dist dot sel cand hc
      have he : (cand.erase (if sel = [] then pyMin dist cand
          else pyMax (mmrScore dist dot sel) cand)).length = cand.length - 1 :=
        List.length_erase_of_mem hmem
      have hc1 : 1 ≤ cand.length := List.length_pos.mpr hc
      have h1 : (cand.erase (if sel = [] then pyMin dist cand
          else pyMax (mmrScore dist dot sel) cand)).length ≤ f := by omega
      have h2 : (sel ++ [if sel = [] then pyMin dist cand
          else pyMax (mmrScore dist dot sel) cand]).length ≤ k := by
        simp only [List.length_append, List.length_cons, List.length_nil]
        omega
      rw [ih _ _ h1 h2]
      simp only [List.length_append, List.length_cons, List.length_nil]
      omega

/-- Claim C2 first pick: with `k ≥ 1` and a non-empty pool the selection opens
with Python's `min` of the pool by distance. -/
theorem mmrSelect_head (dist : Nat → ℚ) (dot : Nat → Nat → ℚ) (k n : Nat)
    (hk : 1 ≤ k) (hn : 1 ≤ n) :
    ∃ t, mmrSelect dist dot k n = pyMin dist (List.range n) :: t := by
  unfold mmrSelect
  obtain ⟨m, rfl⟩ : ∃ m, n = m + 1 := ⟨n - 1, by omega⟩
  have hg : ¬ (List.range (m + 1) = [] ∨ k ≤ ([] : List Nat).length) := by
    intro hg
    rcases hg with hg | hg
    · have := List.length_range (m + 1)
      rw [hg] at this
      simp at this
    · simp at hg
      omega
  simp only [mmrLoop, if_neg hg]
  simp only [eq_self_iff_true, if_true, List.nil_append]
  obtain ⟨t, ht⟩ := mmrLoop_prefix dist dot k m
    ((List.range (m + 1)).erase (pyMin dist (List.range (m + 1))))
    [pyMin dist (List.range (m + 1))]
  exact ⟨t, by rw [ht]; rfl⟩

/-- Claim C2: on any Stage-0 candidate set of size `n`, the diversity stage
never selects the same candidate twice, selects exactly `min k n` items, and
(when `k ≥ 1` and candidates exist) its first pick is the minimum-distance
candidate with ties broken by the earliest Stage-0 position. -/
theorem c2_mmr_selection :
    ∀ (dist : Nat → ℚ) (dot : Nat → Nat → ℚ) (k n : Nat),
      (mmrSelect dist dot k n).Nodup ∧
      (mmrSelect dist dot k n).length = min k n ∧
      (1 ≤ k → 1 ≤ n →
        ∃ b t, mmrSelect dist dot k n = b :: t ∧ b < n ∧
          (∀ j < n, dist b ≤ dist j) ∧ ∀ j < b, dist b < dist j) := by
  intro dist dot k n
  refine ⟨?_, ?_, ?_⟩
  · exact mmrLoop_nodup dist dot k n (List.range n) [] (by simpa using List.nodup_range n)
  · have := mmrLoop_length dist dot k n (List.range n) []
      (by rw [List.length_range]) (by simp)
    simpa [List.length_range] using this
  · intro hk hn
    obtain ⟨t, ht⟩ := mmrSelect_head dist dot k n hk hn
    obtain ⟨h1, h2, h3⟩ := pyMin_range_first dist n hn
    exact ⟨pyMin dist (List.range n), t, ht, h1, h2, h3⟩

/-- Witness for C2 on three candidates with distances `0.9, 0.1, 0.2`, `k = 2`:
the selection is duplicate-free, has two elements, and opens with index 1. -/
theorem c2_mmr_selection_witness :
    (mmrSelect (fun i => ([9/10, 1/10, 2/10] : List ℚ).getD i 0) (fun _ _ => 0) 2 3).Nodup ∧
    (mmrSelect (fun i => ([9/10, 1/10, 2/10] : List ℚ).getD i 0) (fun _ _ => 0) 2 3).length =
      min 2 3 ∧
    ∃ b t, mmrSelect (fun i => ([9/10, 1/10, 2/10] : List ℚ).getD i 0) (fun _ _ => 0) 2 3 =
        b :: t ∧ b < 3 ∧
      (∀ j < 3, ([9/10, 1/10, 2/10] : List ℚ).getD b 0 ≤ ([9/10, 1/10, 2/10] : List ℚ).getD j 0) ∧
      ∀ j < b, ([9/10, 1/10, 2/10] : List ℚ).getD b 0 < ([9/10, 1/10, 2/10] : List ℚ).getD j 0 :=
  ⟨(c2_mmr_selection (fun i => ([9/10, 1/10, 2/10] : List ℚ).getD i 0) (fun _ _ => 0) 2 3).1,
   (c2_mmr_selection (fun i => ([9/10, 1/10, 2/10] : List ℚ).getD i 0) (fun _ _ => 0) 2 3).2.1,
   (c2_mmr_selection (fun i => ([9/10, 1/10, 2/10] : List ℚ).getD i 0) (fun _ _ => 0) 2 3).2.2
     (by decide) (by decide)⟩
